import Mathlib

/-!
Verification of the prompt engine of rum (a terminal prompt tool written in
Rust).  The Rust sources are shallowly embedded: every stateful component is a
Lean structure, effectful calls (child-process polling, clocks) become explicit
parameters, machine integers become Nat/Int, and Rust panics become Option
results.  The two recorded source variants (the self-contained main.rs and the
per-file ComponentTrait modules) agree on all logic modelled here; deviations
are noted where they occur.
-/

/-! ## Input events (the crossterm subset the program matches on) -/

/-- Key codes the program distinguishes (crossterm KeyCode subset). -/
inductive KeyCode where
  | char (c : Char)
  | enter
  | backspace
  | up
  | down
  | left
  | right
  | otherKey
  deriving DecidableEq

/-- Key modifiers; KeyModifiers::NONE is all-false, CONTROL is ctrl-only. -/
structure Modifiers where
  ctrl : Bool
  shift : Bool
  alt : Bool
  deriving DecidableEq

/-- KeyModifiers::NONE. -/
def Modifiers.noneMods : Modifiers := ⟨false, false, false⟩

/-- KeyModifiers::CONTROL. -/
def Modifiers.control : Modifiers := ⟨true, false, false⟩

/-- A terminal event: a key press with modifiers, or any non-key event
(resize, mouse, ...), which every component ignores. -/
inductive Event where
  | key (code : KeyCode) (mods : Modifiers)
  | nonKey
  deriving DecidableEq

/-! ## lru::LruCache<usize, ()> as the Choose selection cache

The lru crate keeps entries in most-recently-used-first order: `push` inserts
the key at the MRU end and, when the cache is at capacity and the key is
absent, evicts the entry at the LRU end; `get` promotes the key to the MRU
end; `pop` removes the key; `iter` visits entries from most recently used to
least recently used.  We model the cache as the list of keys in that iteration
order together with the capacity (a NonZeroUsize at the Rust type level). -/

structure LruCache where
  cap : Nat
  keys : List Nat
  deriving DecidableEq

/-- LruCache::new(cap). -/
def LruCache.empty (cap : Nat) : LruCache := ⟨cap, []⟩

/-- LruCache::len. -/
def LruCache.len (c : LruCache) : Nat := c.keys.length

/-- LruCache::get(&k).is_some(): reports membership and promotes a present
key to the most-recently-used position. -/
def LruCache.getPromote (c : LruCache) (k : Nat) : Bool × LruCache :=
  if k ∈ c.keys then (true, ⟨c.cap, k :: c.keys.erase k⟩) else (false, c)

/-- LruCache::pop(&k): removes the key. -/
def LruCache.pop (c : LruCache) (k : Nat) : LruCache :=
  ⟨c.cap, c.keys.erase k⟩

/-- LruCache::push(k, ()): a present key moves to the MRU position; an absent
key is inserted at the MRU position, evicting the LRU entry when the cache is
at capacity. -/
def LruCache.push (c : LruCache) (k : Nat) : LruCache :=
  if k ∈ c.keys then ⟨c.cap, k :: c.keys.erase k⟩
  else if c.keys.length = c.cap then ⟨c.cap, k :: c.keys.dropLast⟩
  else ⟨c.cap, k :: c.keys⟩

/-- The Space-toggle of Choose::handle_event: membership test via get (which
promotes), then pop when present, push when absent. -/
def LruCache.toggle (c : LruCache) (k : Nat) : LruCache :=
  let g := c.getPromote k
  if g.1 then g.2.pop k else g.2.push k

/-! ## Choose -/

/-- The Choose prompt (choose.rs / the Choose arm of main.rs). -/
structure Choose where
  text : String
  selectedString : String
  unselectedString : String
  inexact : Bool
  choices : List String
  chosen : LruCache
  selections : Nat
  cursorLoc : Nat
  deriving DecidableEq

/-- Choose::handle_event: Down/Up move the cursor clamped to the list bounds,
Space toggles the cursor index in the cache, Enter completes when the mode is
inexact or the cache is exactly full; everything else is ignored. -/
def Choose.handleEvent (s : Choose) (e : Event) : Bool × Choose :=
  match e with
  | .key .down _ =>
      if s.cursorLoc ≠ s.choices.length - 1 then
        (false, { s with cursorLoc := s.cursorLoc + 1 })
      else (false, s)
  | .key .up _ =>
      if s.cursorLoc ≠ 0 then (false, { s with cursorLoc := s.cursorLoc - 1 })
      else (false, s)
  | .key (.char c) _ =>
      if c = ' ' then (false, { s with chosen := s.chosen.toggle s.cursorLoc })
      else (false, s)
  | .key .enter _ =>
      if s.inexact ∨ s.chosen.len = s.selections then (true, s) else (false, s)
  | _ => (false, s)

/-- Choose::result: the chosen option strings in cache iteration order
(most recently used first), joined by newlines; status 0. -/
def Choose.result (s : Choose) : String × Nat :=
  (String.intercalate "\n" (s.chosen.keys.filterMap (fun k => s.choices.get? k)), 0)

/-! ## Confirm -/

/-- The Confirm prompt (confirm.rs / the Confirm arm of main.rs). -/
structure Confirm where
  text : String
  paddedNo : String
  paddedYes : String
  confirmed : Bool
  deriving DecidableEq

/-- Confirm update: Right sets the flag, Left clears it, a plain Enter
(KeyModifiers::NONE) completes. -/
def Confirm.update (s : Confirm) (e : Event) : Bool × Confirm :=
  match e with
  | .key .right _ => (false, { s with confirmed := true })
  | .key .left _ => (false, { s with confirmed := false })
  | .key .enter m =>
      if m = Modifiers.noneMods then (true, s) else (false, s)
  | _ => (false, s)

/-- Confirm result per main.rs Component::result: empty payload, status 0 when
confirmed and 1 otherwise. -/
def Confirm.result (s : Confirm) : String × Nat :=
  ("", if s.confirmed then 0 else 1)

/-- The default Confirm component built by Component::from_opts from the
default option strings (texts are irrelevant to the result). -/
def confirmDefault : Confirm :=
  { text := "Confirm?", paddedNo := "    No    ", paddedYes := "   Yes    "
    confirmed := false }

/-! ## TextEntry

Rust String contents are modelled as the list of Unicode scalar values
(Lean Char = one scalar).  String::push appends one scalar, String::pop
removes the last scalar.  Grapheme segmentation (unicode-segmentation's
grapheme_indices) is modelled by an abstract segmentation function; byte
offsets become scalar offsets, which preserves every boundary fact. -/

/-- The TextEntry prompt (text.rs / the Text arm of main.rs).  The Rust field
named prefix is called prefixText here. -/
structure TextPrompt where
  width : Nat
  placeholder : List Char
  prefixText : List Char
  input : List Char
  deriving DecidableEq

/-- Text update: any character key appends its scalar, Backspace is
String::pop (drop the last scalar), a plain Enter completes. -/
def TextPrompt.update (s : TextPrompt) (e : Event) : Bool × TextPrompt :=
  match e with
  | .key (.char c) _ => (false, { s with input := s.input ++ [c] })
  | .key .backspace _ => (false, { s with input := s.input.dropLast })
  | .key .enter m =>
      if m = Modifiers.noneMods then (true, s) else (false, s)
  | _ => (false, s)

/-- The scalar offsets at which each grapheme of a segmentation starts,
starting from a base offset: the offset component of grapheme_indices. -/
def graphemeStarts : List (List Char) → Nat → List Nat
  | [], _ => []
  | g :: rest, acc => acc :: graphemeStarts rest (acc + g.length)

/-- Text::draw, reduced to the pair the code computes: the is_bg styling flag
(dim+italic for the placeholder) and the scalars printed after the prefix.
With an empty buffer the placeholder is sliced at the offset of grapheme
number width (or its full length); otherwise the buffer is sliced from the
offset of the width-th grapheme from the end (grapheme_indices().rev()
.nth(width - 1), defaulting to 0).  The unsigned subtraction width - 1
underflows when width = 0, which panics: that is modelled as none. -/
def TextPrompt.draw (seg : List Char → List (List Char)) (s : TextPrompt) :
    Option (Bool × List Char) :=
  if s.input = [] then
    some (true,
      s.placeholder.take
        (((graphemeStarts (seg s.placeholder) 0).get? s.width).getD
          s.placeholder.length))
  else if s.width = 0 then none
  else
    some (false,
      s.input.drop
        (((graphemeStarts (seg s.input) 0).reverse.get? (s.width - 1)).getD 0))

/-- The structopt default for the global width option in main.rs. -/
def defaultWidth : Nat := 32

/-- A segmentation function is valid when its pieces concatenate back to the
segmented list and no piece is empty (unicode-segmentation guarantees both). -/
def Segmentation (seg : List Char → List (List Char)) : Prop :=
  ∀ l : List Char, (seg l).flatten = l ∧ ∀ g ∈ seg l, g ≠ []

/-! ## Typer

The grapheme queue holds the graphemes still to print, in print order
(main.rs walks a forward Graphemes iterator; typer.rs stores the reversed
vector and pops from its back - the same queue).  Instants are Nat; the
elapsed test last_updated.elapsed() > speed becomes speed < now - last. -/

/-- The Typer prompt state. -/
structure Typer where
  speed : Nat
  wait : Nat
  queue : List String
  donePrinting : Bool
  lastUpdated : Nat
  deriving DecidableEq

/-- Typer::tick: once done printing, complete after the wait duration; before
that, when the speed duration has elapsed either print the next grapheme and
reset the timestamp, or mark printing done when the queue is exhausted.
Returns (completed, new state, grapheme printed this tick). -/
def Typer.tick (s : Typer) (now : Nat) : Bool × Typer × Option String :=
  if s.donePrinting then
    if s.wait < now - s.lastUpdated then (true, s, none) else (false, s, none)
  else if s.speed < now - s.lastUpdated then
    match s.queue with
    | c :: rest => (false, { s with queue := rest, lastUpdated := now }, some c)
    | [] => (false, { s with donePrinting := true }, none)
  else (false, s, none)

/-- Drive Typer::tick over a list of tick instants, as the main loop does,
stopping at the first completed tick; collects the printed graphemes. -/
def Typer.run (s : Typer) : List Nat → Typer × List String
  | [] => (s, [])
  | t :: ts =>
      let r := s.tick t
      if r.1 then (r.2.1, r.2.2.toList)
      else
        let rest := r.2.1.run ts
        (rest.1, r.2.2.toList ++ rest.2)

/-! ## Spinner

The child process handle is external: each try_wait() call is passed in as a
parameter of type Option ExitStatus (none = still running), where an
ExitStatus carries its code() as Option Int (none = killed by a signal). -/

/-- A child process ExitStatus, reduced to its code(). -/
abbrev ExitStatus := Option Int

/-- The Spinner prompt state (the Child handle lives outside the model). -/
structure Spinner where
  speed : Nat
  text : String
  chars : List String
  progress : Nat
  lastUpdated : Nat
  deriving DecidableEq

/-- Spinner::tick: a non-blocking try_wait check first - any observed exit
completes immediately, leaving the frame state untouched; only with no exit
observed does an elapsed frame-speed advance the frame index modulo the frame
count and reset the timestamp. -/
def Spinner.tick (s : Spinner) (tryWait : Option ExitStatus) (now : Nat) :
    Bool × Spinner :=
  match tryWait with
  | some _ => (true, s)
  | none =>
      if s.speed < now - s.lastUpdated then
        (false, { s with progress := (s.progress + 1) % s.chars.length,
                         lastUpdated := now })
      else (false, s)

/-- code.code().unwrap_or(1) as u8: two's-complement truncation to a byte. -/
def byteOfCode (code : ExitStatus) : Nat := ((code.getD 1) % 256).toNat

/-- The Spinner arm of main.rs Component::result: try_wait once more; a
recorded exit yields its code as the status, otherwise the child is killed
(the returned flag records that a termination request was issued) and the
status is 1.  The payload is always empty. -/
def Spinner.result (s : Spinner) (tryWait : Option ExitStatus) :
    (String × Nat) × Bool :=
  match tryWait, s with
  | some code, _ => (("", byteOfCode code), false)
  | none, _ => (("", 1), true)

/-! ## The polymorphic component and the driving loop (main.rs) -/

/-- The closed component type of main.rs. -/
inductive Component where
  | text (s : TextPrompt)
  | confirm (s : Confirm)
  | spinner (s : Spinner)
  | typer (s : Typer)
  | choose (s : Choose)
  deriving DecidableEq

/-- Component::update (main.rs): dispatch one input event to the active
component; Spinner and Typer ignore all events. -/
def Component.update (c : Component) (e : Event) : Bool × Component :=
  match c with
  | .text s => let r := s.update e; (r.1, .text r.2)
  | .confirm s => let r := s.update e; (r.1, .confirm r.2)
  | .spinner s => (false, .spinner s)
  | .typer s => (false, .typer s)
  | .choose s => let r := s.handleEvent e; (r.1, .choose r.2)

/-- Component::result (main.rs): the final payload, status, and whether a
child termination request was issued while producing it. -/
def Component.result (c : Component) (tryWait : Option ExitStatus) :
    (String × Nat) × Bool :=
  match c with
  | .text s => ((s.input.asString, 0), false)
  | .confirm s => (s.result, false)
  | .spinner s => s.result tryWait
  | .typer _ => (("", 0), false)
  | .choose s => (s.result, false)

/-- The loop's interrupt test: Ctrl+C, i.e. the character c with exactly the
CONTROL modifier, matched before the event is dispatched to the component. -/
def isInterrupt (e : Event) : Bool :=
  match e with
  | .key (.char c) m => c = 'c' && m = Modifiers.control
  | _ => false

/-- One event-handling step of the main loop. -/
inductive LoopStep where
  | interrupted
  | done (c : Component)
  | running (c : Component)
  deriving DecidableEq

/-- The event half of one main-loop iteration: the interrupt combination ends
the loop before dispatch; otherwise the event goes to the component, whose
completion ends the loop. -/
def loopHandleEvent (c : Component) (e : Event) : LoopStep :=
  if isInterrupt e then .interrupted
  else
    let r := c.update e
    if r.1 then .done r.2 else .running r.2

/-- The post-loop projection of main.rs: when the loop was interrupted the
payload is empty and the status the fixed 1, and Component::result is never
invoked (so no child termination request is issued there); otherwise the
component's result is taken.  The flag records whether result issued a child
termination request. -/
def mainFinal (interrupted : Bool) (c : Component) (tryWait : Option ExitStatus) :
    (String × Nat) × Bool :=
  if interrupted then (("", 1), false) else c.result tryWait

/-- Feed a list of events through Component::update as the loop does,
returning the completed component, or none when the events are exhausted
without completion. -/
def runUpdates (c : Component) : List Event → Option Component
  | [] => none
  | e :: es =>
      let r := c.update e
      if r.1 then some r.2 else runUpdates r.2 es

/-! ## Concrete configurations used by the testable properties -/

/-- The Choose component of the capacity-2 exact-mode scenario over the
options a, b, c (from_opts: cursor 0, empty cache, bracket markers since
selections is not 1). -/
def chooseC1 : Choose :=
  { text := "Choose from these options:", selectedString := "[x] ",
    unselectedString := "[ ] ", inexact := false, choices := ["a", "b", "c"],
    chosen := LruCache.empty 2, selections := 2, cursorLoc := 0 }

/-- The event sequence Space, Down, Space, Enter. -/
def c1Events : List Event :=
  [.key (.char ' ') Modifiers.noneMods, .key .down Modifiers.noneMods,
   .key (.char ' ') Modifiers.noneMods, .key .enter Modifiers.noneMods]

/-- C1 counterexample: in the capacity-2 exact-mode Choose over a, b, c, the
sequence Space, Down, Space, Enter completes with payload "b\na" - the cache
iterates most-recently-used first - which is not the claimed "a\nb". -/
theorem c1_counterexample :
    (runUpdates (.choose chooseC1) c1Events).map
        (fun c => (c.result none).1) = some ("b\na", 0) ∧
      "b\na" ≠ "a\nb" := by
  decide

/-- C1 (amended): the sequence Space, Down, Space, Enter completes the
capacity-2 exact-mode Choose over a, b, c with payload "b\na" (the chosen
strings in selection-cache iteration order, which is most-recently-selected
first) and status 0; Space then Enter leaves the prompt incomplete, and in
general an Enter while the exact-mode cache is not exactly full does not
complete the prompt. -/
theorem c1_amended_behavior :
    (runUpdates (.choose chooseC1) c1Events).map
        (fun c => (c.result none).1) = some ("b\na", 0) ∧
      runUpdates (.choose chooseC1)
        [.key (.char ' ') Modifiers.noneMods, .key .enter Modifiers.noneMods] =
        none ∧
      ∀ (s : Choose) (m : Modifiers), s.inexact = false →
        s.chosen.len ≠ s.selections →
        (s.handleEvent (.key .enter m)).1 = false := by
  refine ⟨by decide, by decide, fun s m h1 h2 => ?_⟩
  simp [Choose.handleEvent, h1, h2]

/-- C1 witness: the general Enter clause of the amended claim at the concrete
initial state, where nothing is selected. -/
theorem c1_amended_witness :
    (Choose.handleEvent chooseC1 (.key .enter Modifiers.noneMods)).1 = false := by
  exact c1_amended_behavior.2.2 chooseC1 Modifiers.noneMods rfl (by decide)

/-- C2: main.rs ends an interrupted run through the interrupted branch, which
never calls Component::result, so no child termination request is issued (the
flag is false) even though the status is the fixed 1; the second conjunct
shows Component::result itself would have issued the termination request for
a still-live child, which is exactly the path the interrupt branch skips. -/
theorem c2_interrupted_spinner_skips_kill (s : Spinner) :
    mainFinal true (.spinner s) none = (("", 1), false) ∧
      Spinner.result s none = (("", 1), true) :=
  ⟨rfl, rfl⟩

/-- C3: for the Confirm prompt, Right then plain Enter completes with payload
"" and status 0, while a plain Enter from the default state completes with
status 1, which is non-zero. -/
theorem c3_confirm_sequences :
    (runUpdates (.confirm confirmDefault)
          [.key .right Modifiers.noneMods, .key .enter Modifiers.noneMods]).map
        (fun c => (c.result none).1) = some ("", 0) ∧
      (runUpdates (.confirm confirmDefault) [.key .enter Modifiers.noneMods]).map
        (fun c => (c.result none).1) = some ("", 1) ∧
      (1 : Nat) ≠ 0 := by
  decide

/-- C7: an event recognized as the interrupt combination ends the loop before
any dispatch to the component, and the interrupted projection discards the
component's payload logic: the payload is empty (nothing is printed), the
status is the fixed 1 ≠ 0, and no Component::result call happens (flag
false), for every component state. -/
theorem c7_interrupt_discards_result (c : Component) (e : Event)
    (tw : Option ExitStatus) (h : isInterrupt e = true) :
    loopHandleEvent c e = .interrupted ∧
      mainFinal true c tw = (("", 1), false) ∧ (1 : Nat) ≠ 0 := by
  refine ⟨?_, rfl, by decide⟩
  simp [loopHandleEvent, h]

/-- C7 witness: Ctrl+C in the default Confirm state. -/
theorem c7_interrupt_witness :
    isInterrupt (.key (.char 'c') Modifiers.control) = true ∧
      loopHandleEvent (.confirm confirmDefault)
        (.key (.char 'c') Modifiers.control) = .interrupted ∧
      mainFinal true (.confirm confirmDefault) none = (("", 1), false) := by
  have h := c7_interrupt_discards_result (.confirm confirmDefault)
    (.key (.char 'c') Modifiers.control) none (by decide)
  exact ⟨by decide, h.1, h.2.1⟩

/-- C8: Spinner::tick checks the child first - an observed exit completes
immediately with the frame state untouched; with no exit, an elapsed
frame-speed advances the frame modulo the frame count and resets the
timestamp, and otherwise nothing changes; after a successful exit (code 0)
the result projection reports status 0 with empty payload. -/
theorem c8_spinner_tick_order :
    (∀ (s : Spinner) (es : ExitStatus) (now : Nat),
        s.tick (some es) now = (true, s)) ∧
      (∀ (s : Spinner) (now : Nat), now - s.lastUpdated ≤ s.speed →
        s.tick none now = (false, s)) ∧
      (∀ (s : Spinner) (now : Nat), s.speed < now - s.lastUpdated →
        s.tick none now =
          (false, { s with progress := (s.progress + 1) % s.chars.length,
                           lastUpdated := now })) ∧
      ∀ s : Spinner, Spinner.result s (some (some 0)) = (("", 0), false) := by
  refine ⟨fun s es now => rfl, fun s now h => ?_, fun s now h => ?_, fun s => rfl⟩
  · simp [Spinner.tick, Nat.not_lt.mpr h]
  · simp [Spinner.tick, h]

/-- C8 witness: a concrete spinner with frame-speed 100: an exit observed at
time 5 completes with the frames untouched; with no exit, time 5 changes
nothing and time 101 advances the frame and resets the timestamp; the
successful exit projects to status 0. -/
theorem c8_spinner_tick_witness :
    Spinner.tick ⟨100, "w", ["x", "y"], 0, 0⟩ (some (some 0)) 5 =
        (true, ⟨100, "w", ["x", "y"], 0, 0⟩) ∧
      Spinner.tick ⟨100, "w", ["x", "y"], 0, 0⟩ none 5 =
        (false, ⟨100, "w", ["x", "y"], 0, 0⟩) ∧
      Spinner.tick ⟨100, "w", ["x", "y"], 0, 0⟩ none 101 =
        (false, ⟨100, "w", ["x", "y"], 1, 101⟩) ∧
      Spinner.result ⟨100, "w", ["x", "y"], 0, 0⟩ (some (some 0)) =
        (("", 0), false) := by
  have h := c8_spinner_tick_order
  exact ⟨h.1 _ _ _, h.2.1 _ 5 (by decide), by simpa using h.2.2.1 _ 101 (by decide),
    h.2.2.2 _⟩

/-- C9: Text::draw is total whenever the window width is at least 1; with
width 0 and a non-empty buffer the unsigned subtraction width - 1 underflows
(the modelled panic, i.e. none); the default configured width is 32. -/
theorem c9_draw_totality :
    (∀ (seg : List Char → List (List Char)) (s : TextPrompt), 1 ≤ s.width →
        (s.draw seg).isSome = true) ∧
      (∀ (seg : List Char → List (List Char)) (s : TextPrompt), s.width = 0 →
        s.input ≠ [] → s.draw seg = none) ∧
      defaultWidth = 32 := by
  refine ⟨fun seg s h => ?_, fun seg s h0 hne => ?_, rfl⟩
  · by_cases hi : s.input = []
    · simp [TextPrompt.draw, hi]
    · have hw : s.width ≠ 0 := by omega
      simp [TextPrompt.draw, hi, hw]
  · simp [TextPrompt.draw, hne, h0]

/-- C9 witness: with each scalar its own grapheme, width 1 renders a
non-empty buffer, width 0 on the same buffer panics, and the default width
is 32. -/
theorem c9_draw_totality_witness :
    (TextPrompt.draw (fun l => l.map (fun c => [c]))
          ⟨1, ['p'], [], ['a']⟩).isSome = true ∧
      TextPrompt.draw (fun l => l.map (fun c => [c])) ⟨0, ['p'], [], ['a']⟩ =
        none ∧
      defaultWidth = 32 := by
  have h := c9_draw_totality
  exact ⟨h.1 _ _ (by decide), h.2.1 _ _ rfl (by decide), h.2.2⟩

/-- C10: a Backspace event is String::pop, removing exactly the final Unicode
scalar: on a buffer whose final grapheme g has at least two scalars, the
event does not complete the prompt and leaves the earlier graphemes plus the
non-empty proper prefix of g in the buffer. -/
theorem c10_backspace_pops_scalar (s : TextPrompt) (m : Modifiers)
    (gs : List (List Char)) (g : List Char)
    (hjoin : s.input = gs.flatten ++ g) (hg : 2 ≤ g.length) :
    s.update (.key .backspace m) =
      (false, { s with input := gs.flatten ++ g.dropLast }) ∧
      g.dropLast ≠ [] := by
  have hgne : g ≠ [] := by
    intro hnil
    rw [hnil] at hg
    simp at hg
  constructor
  · simp only [TextPrompt.update, hjoin]
    rw [List.dropLast_append_of_ne_nil _ hgne]
  · intro hnil
    have hlen := congrArg List.length hnil
    rw [List.length_dropLast] at hlen
    simp at hlen
    omega

/-- C10 witness: the buffer e followed by a combining acute accent is one
two-scalar grapheme; one Backspace leaves the bare e. -/
theorem c10_backspace_witness :
    TextPrompt.update ⟨32, [], [], ['e', Char.ofNat 769]⟩
        (.key .backspace Modifiers.noneMods) =
      (false, ⟨32, [], [], ['e']⟩) ∧ (['e', Char.ofNat 769].dropLast ≠ []) := by
  have h := c10_backspace_pops_scalar ⟨32, [], [], ['e', Char.ofNat 769]⟩
    Modifiers.noneMods [] ['e', Char.ofNat 769] rfl (by decide)
  exact ⟨h.1, h.2⟩

/-! ## Grapheme windowing lemmas -/

theorem graphemeStarts_length (gs : List (List Char)) (a : Nat) :
    (graphemeStarts gs a).length = gs.length := by
  induction gs generalizing a with
  | nil => rfl
  | cons g rest ih => simp [graphemeStarts, ih]

theorem graphemeStarts_get (gs : List (List Char)) (a n : Nat)
    (h : n < gs.length) :
    (graphemeStarts gs a).get? n = some (a + (gs.take n).flatten.length) := by
  induction gs generalizing a n with
  | nil => simp at h
  | cons g rest ih =>
      cases n with
      | zero => simp [graphemeStarts]
      | succ n =>
          have hn : n < rest.length := by simpa using h
          show (graphemeStarts rest (a + g.length)).get? n = _
          rw [ih (a + g.length) n hn]
          congr 1
          simp only [List.take_succ_cons, List.flatten_cons, List.length_append]
          omega

theorem graphemeStarts_get_none (gs : List (List Char)) (a n : Nat)
    (h : gs.length ≤ n) : (graphemeStarts gs a).get? n = none := by
  rw [List.get?_eq_getElem?, List.getElem?_eq_none]
  rw [graphemeStarts_length]
  exact h

theorem flatten_take_front (gs : List (List Char)) (n : Nat) :
    gs.flatten.take ((gs.take n).flatten.length) = (gs.take n).flatten := by
  have key : gs.flatten = (gs.take n).flatten ++ (gs.drop n).flatten := by
    rw [← List.flatten_append, List.take_append_drop]
  rw [key, List.take_left]

theorem flatten_drop_suffix (gs : List (List Char)) (n : Nat) :
    gs.flatten.drop ((gs.take n).flatten.length) = (gs.drop n).flatten := by
  have key : gs.flatten = (gs.take n).flatten ++ (gs.drop n).flatten := by
    rw [← List.flatten_append, List.take_append_drop]
  rw [key, List.drop_left]

theorem draw_empty_buffer (seg : List Char → List (List Char)) (s : TextPrompt)
    (hi : s.input = [])
    (hjoin : (seg s.placeholder).flatten = s.placeholder) :
    s.draw seg = some (true, ((seg s.placeholder).take s.width).flatten) := by
  obtain ⟨gs, hgs⟩ : ∃ gs, seg s.placeholder = gs := ⟨_, rfl⟩
  rw [hgs] at hjoin ⊢
  simp only [TextPrompt.draw, if_pos hi, hgs]
  rw [← hjoin]
  rcases Nat.lt_or_ge s.width gs.length with hlt | hge
  · rw [graphemeStarts_get gs 0 s.width hlt]
    simp only [Option.getD_some, Nat.zero_add]
    rw [flatten_take_front]
  · rw [graphemeStarts_get_none gs 0 s.width hge]
    simp only [Option.getD_none]
    rw [List.take_length, List.take_of_length_le hge]

theorem draw_nonempty_buffer (seg : List Char → List (List Char))
    (s : TextPrompt) (hne : s.input ≠ []) (hw : 1 ≤ s.width)
    (hjoin : (seg s.input).flatten = s.input) :
    s.draw seg =
      some (false,
        ((seg s.input).drop ((seg s.input).length - s.width)).flatten) := by
  have hw0 : s.width ≠ 0 := by omega
  obtain ⟨gs, hgs⟩ : ∃ gs, seg s.input = gs := ⟨_, rfl⟩
  rw [hgs] at hjoin ⊢
  simp only [TextPrompt.draw, if_neg hne, if_neg hw0, hgs]
  rw [← hjoin]
  rcases Nat.lt_or_ge (s.width - 1) gs.length with hlt | hge
  · have hrev : (graphemeStarts gs 0).reverse.get? (s.width - 1) =
        (graphemeStarts gs 0).get? (gs.length - s.width) := by
      rw [List.get?_eq_getElem?, List.get?_eq_getElem?,
        List.getElem?_reverse (by rw [graphemeStarts_length]; exact hlt)]
      congr 1
      rw [graphemeStarts_length]
      omega
    rw [hrev, graphemeStarts_get gs 0 _ (by omega)]
    simp only [Option.getD_some, Nat.zero_add]
    rw [flatten_drop_suffix]
  · have h1 : (graphemeStarts gs 0).reverse.length ≤ s.width - 1 := by
      rw [List.length_reverse, graphemeStarts_length]
      exact hge
    have h2 : gs.length - s.width = 0 := by omega
    rw [List.get?_eq_getElem?, List.getElem?_eq_none h1]
    simp only [Option.getD_none, List.drop_zero, h2]

/-- Fold a sequence of input events through the Text update, keeping the
state (the loop would stop at a completing Enter; the buffer is unchanged by
that event, so the fold subsumes it). -/
def applyTextEvents (s : TextPrompt) (es : List Event) : TextPrompt :=
  es.foldl (fun a e => (a.update e).2) s

/-- C5: for a TextEntry of width at least 1, after any sequence of events the
rendered window is computed from the buffer alone: an empty buffer shows the
first width graphemes of the placeholder with the dim/italic flag set, and a
non-empty buffer shows the last width graphemes of the buffer in normal
style; both are concatenations of whole graphemes of a valid segmentation,
so no multi-scalar grapheme is ever split. -/
theorem c5_text_window (seg : List Char → List (List Char))
    (hseg : Segmentation seg) (s0 : TextPrompt) (es : List Event)
    (s : TextPrompt) (_hs : s = applyTextEvents s0 es) (hw : 1 ≤ s.width) :
    (s.input = [] →
        s.draw seg = some (true, ((seg s.placeholder).take s.width).flatten)) ∧
      (s.input ≠ [] →
        s.draw seg =
          some (false,
            ((seg s.input).drop ((seg s.input).length - s.width)).flatten)) := by
  refine ⟨fun hi => ?_, fun hne => ?_⟩
  · exact draw_empty_buffer seg s hi (hseg s.placeholder).1
  · exact draw_nonempty_buffer seg s hne hw (hseg s.input).1

/-- Each scalar forming its own grapheme is a valid segmentation. -/
theorem segmentation_singletons :
    Segmentation (fun l => l.map (fun c => [c])) := by
  intro l
  constructor
  · induction l with
    | nil => rfl
    | cons c rest ih => simp [ih]
  · intro g hg
    simp only [List.mem_map] at hg
    obtain ⟨c, _, rfl⟩ := hg
    simp

/-- C5 witness: width 2, placeholder p q r; typing a, b, c shows the last two
scalars b c, and the untouched prompt shows the first two placeholder
scalars p q with the dim/italic flag. -/
theorem c5_text_window_witness :
    TextPrompt.draw (fun l => l.map (fun c => [c]))
        (applyTextEvents ⟨2, ['p', 'q', 'r'], [], []⟩
          [.key (.char 'a') Modifiers.noneMods,
           .key (.char 'b') Modifiers.noneMods,
           .key (.char 'c') Modifiers.noneMods]) = some (false, ['b', 'c']) ∧
      TextPrompt.draw (fun l => l.map (fun c => [c]))
        (applyTextEvents ⟨2, ['p', 'q', 'r'], [], []⟩ []) =
        some (true, ['p', 'q']) := by
  constructor
  · have h := (c5_text_window (fun l => l.map (fun c => [c]))
      segmentation_singletons ⟨2, ['p', 'q', 'r'], [], []⟩
      [.key (.char 'a') Modifiers.noneMods, .key (.char 'b') Modifiers.noneMods,
       .key (.char 'c') Modifiers.noneMods] _ rfl (by decide)).2 (by decide)
    simpa using h
  · have h := (c5_text_window (fun l => l.map (fun c => [c]))
      segmentation_singletons ⟨2, ['p', 'q', 'r'], [], []⟩ [] _ rfl
      (by decide)).1 (by decide)
    simpa using h

/-! ## Typer lemmas -/

theorem typer_tick_partition (s : Typer) (now : Nat) :
    (s.tick now).2.2.toList ++ (s.tick now).2.1.queue = s.queue := by
  simp only [Typer.tick]
  split
  · split <;> simp
  · split
    · split <;> simp_all
    · simp

theorem typer_tick_done (s : Typer) (now : Nat)
    (h : s.donePrinting = true → s.queue = []) :
    (s.tick now).2.1.donePrinting = true → (s.tick now).2.1.queue = [] := by
  simp only [Typer.tick]
  split
  · split <;> simpa using h
  · split
    · split <;> simp_all
    · simp_all

theorem typer_run_partition (s : Typer) (ts : List Nat) :
    (s.run ts).2 ++ (s.run ts).1.queue = s.queue := by
  induction ts generalizing s with
  | nil => simp [Typer.run]
  | cons t ts ih =>
      simp only [Typer.run]
      split
      · exact typer_tick_partition s t
      · rw [List.append_assoc, ih ((s.tick t).2.1)]
        exact typer_tick_partition s t

theorem typer_run_done (s : Typer) (ts : List Nat)
    (h : s.donePrinting = true → s.queue = []) :
    (s.run ts).1.donePrinting = true → (s.run ts).1.queue = [] := by
  induction ts generalizing s with
  | nil => simpa [Typer.run] using h
  | cons t ts ih =>
      simp only [Typer.run]
      split
      · exact typer_tick_done s t h
      · exact ih _ (typer_tick_done s t h)

/-- C6: starting not yet done, whenever a tick trace ends with the done
printing flag set, the graphemes printed along the trace are exactly the
initial queue, in order (so exactly N prints for an N-grapheme text);
completion is signaled only with the flag set and the wait duration elapsed;
a printing tick pops exactly one grapheme and resets the timestamp; and no
input event ever changes a Typer or completes it. -/
theorem c6_typer_exact_prints :
    (∀ (s : Typer) (ts : List Nat), s.donePrinting = false →
        (s.run ts).1.donePrinting = true → (s.run ts).2 = s.queue) ∧
      (∀ (s : Typer) (now : Nat), (s.tick now).1 = true →
        s.donePrinting = true ∧ s.wait < now - s.lastUpdated) ∧
      (∀ (s : Typer) (now : Nat) (c : String) (rest : List String),
        s.donePrinting = false → s.speed < now - s.lastUpdated →
        s.queue = c :: rest →
        s.tick now = (false, { s with queue := rest, lastUpdated := now }, some c)) ∧
      ∀ (t : Typer) (e : Event),
        Component.update (.typer t) e = (false, .typer t) := by
  refine ⟨fun s ts h0 hdone => ?_, fun s now h => ?_,
    fun s now c rest h0 hsp hq => ?_, fun t e => rfl⟩
  · have hpart := typer_run_partition s ts
    have hq := typer_run_done s ts (fun hd => by rw [h0] at hd; cases hd) hdone
    rw [hq, List.append_nil] at hpart
    exact hpart
  · revert h
    simp only [Typer.tick]
    split
    · rename_i hdone
      split
      · rename_i hw
        exact fun _ => ⟨hdone, hw⟩
      · intro h
        simp at h
    · split
      · split <;> (intro h; simp at h)
      · intro h
        simp at h
  · simp only [Typer.tick, h0, Bool.false_eq_true, if_false, if_pos hsp, hq]

/-- C6 witness: a two-grapheme Typer with speed 1 and wait 5 prints a then b
over the ticks 2, 4, 6 and ends done; a later tick at 10 signals completion
because the flag is set and 5 < 10 - 4; the printing tick at 2 is exactly a
pop-print-reset; an Enter event leaves the Typer component unchanged. -/
theorem c6_typer_witness :
    (Typer.run ⟨1, 5, ["a", "b"], false, 0⟩ [2, 4, 6]).2 = ["a", "b"] ∧
      ((⟨1, 5, [], true, 4⟩ : Typer).donePrinting = true ∧ (5 : Nat) < 10 - 4) ∧
      Typer.tick ⟨1, 5, ["a", "b"], false, 0⟩ 2 =
        (false, ⟨1, 5, ["b"], false, 2⟩, some "a") ∧
      Component.update (.typer ⟨1, 5, ["a", "b"], false, 0⟩)
        (.key .enter Modifiers.noneMods) =
        (false, .typer ⟨1, 5, ["a", "b"], false, 0⟩) := by
  have h := c6_typer_exact_prints
  refine ⟨h.1 _ [2, 4, 6] rfl (by decide), h.2.1 ⟨1, 5, [], true, 4⟩ 10 (by decide),
    ?_, h.2.2.2 _ _⟩
  exact h.2.2.1 ⟨1, 5, ["a", "b"], false, 0⟩ 2 "a" ["b"] rfl (by decide) rfl

/-! ## Selection-cache lemmas

The bounded-recency claims are proved against the toggle operation exactly as
Choose performs it, plus a ghost-timestamped copy of the same operation in
which each inserted key carries the index of the toggle event that inserted
it; the projection of the timed run onto keys is proved equal to the source
run, and the timed entries are strictly ordered by descending insertion time,
so the evicted last entry is the least-recently-inserted member. -/

/-- Fold a sequence of Space toggles (at arbitrary cursor indices) over the
selection cache. -/
def applyToggles (c : LruCache) (ks : List Nat) : LruCache :=
  ks.foldl LruCache.toggle c

/-- Remove the entry with the given key from a timed cache. -/
def eraseKey (k : Nat) : List (Nat × Nat) → List (Nat × Nat)
  | [] => []
  | p :: rest => if p.1 = k then rest else p :: eraseKey k rest

/-- The toggle on the timed cache: same branches as LruCache.toggle, with the
inserted entry stamped with the current event index. -/
def toggleTimed (cap : Nat) (c : List (Nat × Nat)) (k t : Nat) :
    List (Nat × Nat) :=
  if k ∈ c.map Prod.fst then eraseKey k c
  else if c.length = cap then (k, t) :: c.dropLast
  else (k, t) :: c

/-- Run a toggle trace on the timed cache, stamping the events 0, 1, 2, ... -/
def runTimed (cap : Nat) : List Nat → Nat → List (Nat × Nat) → List (Nat × Nat)
  | [], _, c => c
  | k :: ks, t, c => runTimed cap ks (t + 1) (toggleTimed cap c k t)

/-- The timed cache reached from empty by a toggle trace. -/
def cacheTimed (cap : Nat) (ks : List Nat) : List (Nat × Nat) :=
  runTimed cap ks 0 []

theorem toggle_mem (c : LruCache) (k : Nat) (h : k ∈ c.keys) :
    c.toggle k = ⟨c.cap, c.keys.erase k⟩ := by
  simp only [LruCache.toggle, LruCache.getPromote, if_pos h]
  simp [LruCache.pop, List.erase_cons_head]

theorem toggle_not_mem (c : LruCache) (k : Nat) (h : k ∉ c.keys) :
    c.toggle k = c.push k := by
  simp [LruCache.toggle, LruCache.getPromote, if_neg h]

theorem toggle_cap (c : LruCache) (k : Nat) : (c.toggle k).cap = c.cap := by
  by_cases hm : k ∈ c.keys
  · rw [toggle_mem c k hm]
  · rw [toggle_not_mem c k hm]
    simp only [LruCache.push]
    split
    · rfl
    · split <;> rfl

theorem toggle_len (c : LruCache) (k : Nat) (hcap : 1 ≤ c.cap)
    (h : c.len ≤ c.cap) : (c.toggle k).len ≤ c.cap := by
  have hlen : c.keys.length ≤ c.cap := h
  by_cases hm : k ∈ c.keys
  · rw [toggle_mem c k hm]
    show (c.keys.erase k).length ≤ c.cap
    rw [List.length_erase_of_mem hm]
    omega
  · rw [toggle_not_mem c k hm]
    simp only [LruCache.push, if_neg hm]
    split
    · rename_i hfull
      show (k :: c.keys.dropLast).length ≤ c.cap
      rw [List.length_cons, List.length_dropLast]
      omega
    · rename_i hnot
      show (k :: c.keys).length ≤ c.cap
      rw [List.length_cons]
      have : c.keys.length < c.cap := lt_of_le_of_ne hlen hnot
      omega

theorem applyToggles_len (c : LruCache) (ks : List Nat) (hcap : 1 ≤ c.cap)
    (h : c.len ≤ c.cap) :
    (applyToggles c ks).len ≤ c.cap ∧ (applyToggles c ks).cap = c.cap := by
  induction ks generalizing c with
  | nil => exact ⟨h, rfl⟩
  | cons k ks ih =>
      have h1 := toggle_len c k hcap h
      have h2 := toggle_cap c k
      have h3 := ih (c.toggle k) (by rw [h2]; exact hcap) (by rw [h2]; exact h1)
      constructor
      · show (applyToggles (c.toggle k) ks).len ≤ c.cap
        rw [← h2]
        exact h3.1
      · show (applyToggles (c.toggle k) ks).cap = c.cap
        rw [h3.2, h2]

theorem eraseKey_sublist (k : Nat) (c : List (Nat × Nat)) :
    List.Sublist (eraseKey k c) c := by
  induction c with
  | nil => simp [eraseKey]
  | cons p rest ih =>
      simp only [eraseKey]
      split
      · exact List.sublist_cons_self p rest
      · exact ih.cons₂ p

theorem map_fst_eraseKey (k : Nat) (c : List (Nat × Nat)) :
    (eraseKey k c).map Prod.fst = (c.map Prod.fst).erase k := by
  induction c with
  | nil => rfl
  | cons p rest ih =>
      simp only [eraseKey, List.map_cons, List.erase_cons]
      split
      · rename_i h
        rw [if_pos (by simp [h])]
      · rename_i h
        rw [if_neg (by simp [h])]
        simp [ih]

/-- The timed-cache invariant: every stamp is below the next event index and
the stamps strictly decrease along the list (newest first). -/
def TimesOK (t : Nat) (c : List (Nat × Nat)) : Prop :=
  (∀ p ∈ c, p.2 < t) ∧ c.Pairwise (fun a b => b.2 < a.2)

theorem timesOK_toggle (cap k t : Nat) (c : List (Nat × Nat))
    (h : TimesOK t c) : TimesOK (t + 1) (toggleTimed cap c k t) := by
  obtain ⟨hb, hp⟩ := h
  unfold toggleTimed
  split
  · exact ⟨fun p hpm => Nat.lt_succ_of_lt
      (hb p ((eraseKey_sublist k c).subset hpm)),
      hp.sublist (eraseKey_sublist k c)⟩
  · split
    · constructor
      · intro p hpm
        rcases List.mem_cons.mp hpm with rfl | hm
        · simp
        · exact Nat.lt_succ_of_lt (hb p ((List.dropLast_sublist c).subset hm))
      · refine List.pairwise_cons.mpr ⟨?_, hp.sublist (List.dropLast_sublist c)⟩
        intro b hbm
        exact hb b ((List.dropLast_sublist c).subset hbm)
    · constructor
      · intro p hpm
        rcases List.mem_cons.mp hpm with rfl | hm
        · simp
        · exact Nat.lt_succ_of_lt (hb p hm)
      · exact List.pairwise_cons.mpr ⟨fun b hbm => hb b hbm, hp⟩

theorem timesOK_runTimed (cap : Nat) (ks : List Nat) (t : Nat)
    (c : List (Nat × Nat)) (h : TimesOK t c) :
    TimesOK (t + ks.length) (runTimed cap ks t c) := by
  induction ks generalizing t c with
  | nil => simpa using h
  | cons k ks ih =>
      have step := ih (t + 1) (toggleTimed cap c k t) (timesOK_toggle cap k t c h)
      have harith : t + 1 + ks.length = t + (k :: ks).length := by
        simp
        omega
      rw [harith] at step
      exact step

theorem pairwise_last_min (c : List (Nat × Nat)) (h : c ≠ [])
    (hp : c.Pairwise (fun a b => b.2 < a.2)) :
    ∀ p ∈ c, (c.getLast h).2 ≤ p.2 := by
  induction c with
  | nil => exact absurd rfl h
  | cons a rest ih =>
      intro p hpm
      rcases List.mem_cons.mp hpm with rfl | hm
      · cases rest with
        | nil => simp [List.getLast]
        | cons b rs =>
            rw [List.getLast_cons (by simp)]
            have hmem := List.getLast_mem (l := b :: rs) (by simp)
            have := (List.pairwise_cons.mp hp).1 _ hmem
            omega
      · cases rest with
        | nil => simp at hm
        | cons b rs =>
            rw [List.getLast_cons (by simp)]
            exact ih (by simp) (List.pairwise_cons.mp hp).2 p hm

theorem map_fst_toggleTimed (cap k t : Nat) (c : List (Nat × Nat)) :
    (toggleTimed cap c k t).map Prod.fst =
      (LruCache.toggle ⟨cap, c.map Prod.fst⟩ k).keys := by
  by_cases hm : k ∈ c.map Prod.fst
  · rw [toggle_mem ⟨cap, c.map Prod.fst⟩ k hm]
    simp only [toggleTimed, if_pos hm]
    exact map_fst_eraseKey k c
  · rw [toggle_not_mem ⟨cap, c.map Prod.fst⟩ k hm]
    simp only [toggleTimed, if_neg hm, LruCache.push, List.length_map]
    by_cases hl : c.length = cap
    · rw [if_pos hl, if_pos hl]
      simp [List.map_dropLast]
    · rw [if_neg hl, if_neg hl]
      simp

theorem map_fst_runTimed (cap : Nat) (ks : List Nat) (t : Nat)
    (c : List (Nat × Nat)) :
    (runTimed cap ks t c).map Prod.fst =
      (applyToggles ⟨cap, c.map Prod.fst⟩ ks).keys := by
  induction ks generalizing t c with
  | nil => rfl
  | cons k ks ih =>
      simp only [runTimed, applyToggles, List.foldl_cons]
      rw [ih (t + 1) (toggleTimed cap c k t)]
      show (applyToggles _ ks).keys = (applyToggles _ ks).keys
      congr 1
      rw [map_fst_toggleTimed cap k t c]
      have hcap := toggle_cap ⟨cap, c.map Prod.fst⟩ k
      cases hres : LruCache.toggle ⟨cap, c.map Prod.fst⟩ k with
      | mk cp kys =>
          rw [hres] at hcap
          simp_all

/-- C4: a Space event performs exactly the cache toggle at the cursor; for
any capacity k at least 1 (NonZeroUsize) the cache never exceeds k entries
after any toggle sequence; toggling a present index removes it; and in the
timed model of any toggle trace from the empty cache - whose key projection
coincides with the source model - toggling an absent key with the cache full
inserts it and drops the last iteration-order entry, whose insertion stamp is
minimal among all cached entries: the least-recently-inserted member is
evicted. -/
theorem c4_cache_bounds :
    (∀ (s : Choose) (m : Modifiers),
        s.handleEvent (.key (.char ' ') m) =
          (false, { s with chosen := s.chosen.toggle s.cursorLoc })) ∧
      (∀ (c : LruCache) (ks : List Nat), 1 ≤ c.cap → c.len ≤ c.cap →
        (applyToggles c ks).len ≤ c.cap) ∧
      (∀ (c : LruCache) (k : Nat), k ∈ c.keys →
        c.toggle k = ⟨c.cap, c.keys.erase k⟩) ∧
      ∀ (cap : Nat) (ks : List Nat) (k t : Nat),
        (cacheTimed cap ks).map Prod.fst =
            (applyToggles (LruCache.empty cap) ks).keys ∧
          (k ∉ (cacheTimed cap ks).map Prod.fst →
            (cacheTimed cap ks).length = cap →
            toggleTimed cap (cacheTimed cap ks) k t =
                (k, t) :: (cacheTimed cap ks).dropLast ∧
              ∀ (h : cacheTimed cap ks ≠ []) (p : Nat × Nat),
                p ∈ cacheTimed cap ks →
                ((cacheTimed cap ks).getLast h).2 ≤ p.2) := by
  refine ⟨fun s m => by simp [Choose.handleEvent],
    fun c ks hcap h => (applyToggles_len c ks hcap h).1,
    fun c k h => toggle_mem c k h,
    fun cap ks k t => ⟨map_fst_runTimed cap ks 0 [], fun hk hl => ?_⟩⟩
  have hinv := timesOK_runTimed cap ks 0 []
    ⟨fun p hp => absurd hp (List.not_mem_nil p), List.Pairwise.nil⟩
  constructor
  · simp only [toggleTimed, if_neg hk]
    rw [if_pos hl]
  · intro h p hp
    exact pairwise_last_min (cacheTimed cap ks) h hinv.2 p hp

/-- C4 witness: in the capacity-2 scenario, a Space at cursor 0 toggles index
0; the trace 0, 1, 2, 0 never exceeds two entries; toggling present index 1
removes it; after inserting 0 then 1, toggling 2 on the full timed cache
yields the stamped entry 2 followed by the survivor 1, evicting entry 0,
whose stamp 0 is minimal among the cached stamps. -/
theorem c4_cache_witness :
    Choose.handleEvent chooseC1 (.key (.char ' ') Modifiers.noneMods) =
        (false, { chooseC1 with chosen := chooseC1.chosen.toggle 0 }) ∧
      (applyToggles (LruCache.empty 2) [0, 1, 2, 0]).len ≤ 2 ∧
      LruCache.toggle ⟨2, [1, 0]⟩ 1 = ⟨2, [0]⟩ ∧
      toggleTimed 2 (cacheTimed 2 [0, 1]) 2 5 =
          (2, 5) :: (cacheTimed 2 [0, 1]).dropLast ∧
      ∀ p ∈ cacheTimed 2 [0, 1],
        ((cacheTimed 2 [0, 1]).getLast (by decide)).2 ≤ p.2 := by
  have h := c4_cache_bounds
  have h4 := h.2.2.2 2 [0, 1] 2 5
  have h5 := h4.2 (by decide) (by decide)
  exact ⟨h.1 chooseC1 Modifiers.noneMods,
    h.2.1 (LruCache.empty 2) [0, 1, 2, 0] (by decide) (by decide),
    h.2.2.1 ⟨2, [1, 0]⟩ 1 (by decide), h5.1,
    fun p hp => h5.2 (by decide) p hp⟩
